import Mathlib

/-!
Verification of the `cmd_arg` command-line argument classifier.

The source (src/src/cmd_arg.rs) is a single-pass splitter: the first raw
token is the program name, subsequent tokens are classified
(Simple / ShortOpt / LongOpt) until a literal `"--"` separator, after which
all remaining tokens are copied verbatim into `args`.

Strings are embedded as `List Char`.  Rust's byte-length tests
(`arg.len() > 1`, `arg.len() > 2`) are modelled as character-length tests:
for tokens starting with `'-'` (the only place length is consulted) the
byte count exceeds the bound exactly when the character count does, since
`'-'` is a one-byte character, so the two models agree extensionally.
`str::trim` is modelled with `Char.isWhitespace`.
-/

namespace CmdArg

/-- Embeds the Rust enum `OptionType` with variants `Simple`, `ShortOpt`, `LongOpt`. -/
inductive OptionType where
  | Simple : OptionType
  | ShortOpt : OptionType
  | LongOpt : OptionType
deriving DecidableEq, Repr

/-- Embeds the Rust struct `Option` (renamed: `Option` is taken in Lean):
fields `opt_type`, `opt_str`, `opt_values`. -/
structure ParsedOption where
  opt_type : OptionType
  opt_str : List Char
  opt_values : List (List Char)
deriving DecidableEq, Repr

/-- Embeds the Rust struct `Command`: fields `cmd_name`, `opts`, `args`. -/
structure Command where
  cmd_name : List Char
  opts : List ParsedOption
  args : List (List Char)
deriving DecidableEq, Repr

/-- Embeds `determine_opt_type` (cmd_arg.rs lines 223-235):
`--` prefix gives `LongOpt`; else `-` prefix with length above one gives
`ShortOpt`; else `Simple`. -/
def determine_opt_type (arg : List Char) : OptionType :=
  if "--".toList.isPrefixOf arg then OptionType.LongOpt
  else if "-".toList.isPrefixOf arg ∧ 1 < arg.length then OptionType.ShortOpt
  else OptionType.Simple

/-- Embeds `str::trim_start` restricted to the left end: drop leading
whitespace characters. -/
def trimLeft : List Char → List Char
  | [] => []
  | c :: cs => if c.isWhitespace then trimLeft cs else c :: cs

/-- Embeds Rust `str::trim`: drop leading and trailing whitespace. -/
def trim (s : List Char) : List Char :=
  (trimLeft (trimLeft s).reverse).reverse

/-- Embeds Rust `str::split(sep)` for a one-character separator: the list of
pieces between occurrences of `sep` (splitting `""` yields one empty piece,
as in Rust). -/
def splitChar (sep : Char) : List Char → List (List Char)
  | [] => [[]]
  | c :: cs =>
    if c = sep then [] :: splitChar sep cs
    else
      match splitChar sep cs with
      | [] => [[c]]
      | p :: ps => (c :: p) :: ps

/-- Embeds `parse_values` (cmd_arg.rs lines 254-260): split on `','`, trim
each piece, keep the non-empty ones. -/
def parse_values (value : List Char) : List (List Char) :=
  ((splitChar ',' value).map trim).filter (fun s => !s.isEmpty)

/-- Embeds Rust `str::split_once(sep)`: `some (before, after)` around the
first occurrence of `sep`, `none` when `sep` does not occur. -/
def split_once (sep : Char) : List Char → Option (List Char × List Char)
  | [] => none
  | c :: cs =>
    if c = sep then some ([], cs)
    else
      match split_once sep cs with
      | none => none
      | some (k, v) => some (c :: k, v)

/-- The per-token body of the `match opt_type` in `get`
(cmd_arg.rs lines 317-385): the `ParsedOption`s one pre-separator token
contributes, in order. -/
def processArg (arg : List Char) : List ParsedOption :=
  match determine_opt_type arg with
  | OptionType.LongOpt =>
    match split_once '=' arg with
    | some kv => [⟨OptionType.LongOpt, kv.1, parse_values kv.2⟩]
    | none => [⟨OptionType.LongOpt, arg, []⟩]
  | OptionType.ShortOpt =>
    if 2 < arg.length then
      (arg.drop 1).map (fun c => ⟨OptionType.ShortOpt, ['-', c], []⟩)
    else
      [⟨OptionType.ShortOpt, arg, []⟩]
  | OptionType.Simple =>
    [⟨OptionType.Simple, arg, []⟩]

/-- The `while let` loop of `get` (cmd_arg.rs lines 301-386) over the tokens
after the program name: returns the accumulated `opts` and `args`.  A token
literally equal to `"--"` sends the whole remainder to `args` and stops. -/
def scan : List (List Char) → List ParsedOption × List (List Char)
  | [] => ([], [])
  | arg :: rest =>
    if arg = "--".toList then
      ([], rest)
    else
      ((processArg arg) ++ (scan rest).1, (scan rest).2)

/-- Embeds `get` (cmd_arg.rs lines 287-390), with the environment-supplied
argument list made an explicit parameter: first token (or `""`) is the
program name, the rest is scanned. -/
def get (tokens : List (List Char)) : Command :=
  ⟨tokens.headD [], (scan (tokens.drop 1)).1, (scan (tokens.drop 1)).2⟩

/-- Boolean test used to describe the scan's stopping point: the token is
not the literal separator `"--"`. -/
def notSep (a : List Char) : Bool := !(a = "--".toList : Bool)

theorem sep_toList : "--".toList = ['-', '-'] := rfl

theorem get_opts (tokens : List (List Char)) :
    (get tokens).opts = (scan (tokens.drop 1)).1 := rfl

theorem get_args (tokens : List (List Char)) :
    (get tokens).args = (scan (tokens.drop 1)).2 := rfl

theorem scan_fst (l : List (List Char)) :
    (scan l).1 = ((l.takeWhile notSep).map processArg).flatten := by
  induction l with
  | nil => rfl
  | cons a l ih =>
    by_cases h : a = ['-', '-']
    · simp [scan, h, notSep, sep_toList, List.takeWhile_cons]
    · simp [scan, h, notSep, sep_toList, List.takeWhile_cons, ih]

theorem scan_snd (l : List (List Char)) :
    (scan l).2 = (l.dropWhile notSep).drop 1 := by
  induction l with
  | nil => rfl
  | cons a l ih =>
    by_cases h : a = ['-', '-']
    · simp [scan, h, notSep, sep_toList, List.dropWhile_cons]
    · simp [scan, h, notSep, sep_toList, List.dropWhile_cons, ih]

theorem scan_append_sep (pre post : List (List Char))
    (h : ∀ t ∈ pre, t ≠ "--".toList) :
    scan (pre ++ "--".toList :: post) = ((pre.map processArg).flatten, post) := by
  induction pre with
  | nil => simp [scan]
  | cons a l ih =>
    have ha : a ≠ ['-', '-'] := by
      have := h a (List.mem_cons_self a l)
      simpa [sep_toList] using this
    have hrest : ∀ t ∈ l, t ≠ "--".toList := fun t ht => h t (List.mem_cons_of_mem a ht)
    have h2 := ih hrest
    rw [sep_toList] at h2
    simp [scan, ha, sep_toList, h2]

theorem dash_toList : "-".toList = ['-'] := rfl

theorem split_once_eq_none (sep : Char) (l : List Char) (h : sep ∉ l) :
    split_once sep l = none := by
  induction l with
  | nil => rfl
  | cons c cs ih =>
    have hc : ¬ c = sep := fun e => h (e ▸ List.mem_cons_self c cs)
    simp [split_once, hc, ih (fun hm => h (List.mem_cons_of_mem c hm))]

theorem split_once_eq_some (sep : Char) (l : List Char) (h : sep ∈ l) :
    split_once sep l =
      some (l.takeWhile (fun c => !(c = sep : Bool)),
        (l.dropWhile (fun c => !(c = sep : Bool))).drop 1) := by
  induction l with
  | nil => cases h
  | cons c cs ih =>
    by_cases hc : c = sep
    · simp [split_once, hc, List.takeWhile_cons, List.dropWhile_cons]
    · have hm : sep ∈ cs := by
        rcases List.mem_cons.mp h with h1 | h1
        · exact absurd h1.symm hc
        · exact h1
      simp [split_once, hc, ih hm, List.takeWhile_cons, List.dropWhile_cons]

theorem splitChar_ne_nil (sep : Char) (l : List Char) : splitChar sep l ≠ [] := by
  induction l with
  | nil => simp [splitChar]
  | cons c cs ih =>
    by_cases hc : c = sep
    · simp [splitChar, hc]
    · simp only [splitChar, hc, if_false]
      cases hs : splitChar sep cs with
      | nil => simp
      | cons p ps => simp

/-- The inverse of single-character splitting, used to state that `splitChar`
is an exact partition of its input: concatenate the pieces, putting `sep`
between consecutive ones. -/
def joinSep (sep : Char) : List (List Char) → List Char
  | [] => []
  | [p] => p
  | p :: q :: ps => p ++ sep :: joinSep sep (q :: ps)

theorem joinSep_splitChar (sep : Char) (l : List Char) :
    joinSep sep (splitChar sep l) = l := by
  induction l with
  | nil => rfl
  | cons c cs ih =>
    by_cases hc : c = sep
    · rcases hs : splitChar sep cs with _ | ⟨p, ps⟩
      · exact absurd hs (splitChar_ne_nil sep cs)
      · rw [hs] at ih
        simp [splitChar, hc, hs, joinSep, ih]
    · rcases hs : splitChar sep cs with _ | ⟨p, ps⟩
      · exact absurd hs (splitChar_ne_nil sep cs)
      · rw [hs] at ih
        rcases ps with _ | ⟨q, ps⟩
        · simp [splitChar, hc, hs, joinSep] at ih ⊢
          exact ih
        · simp [splitChar, hc, hs, joinSep] at ih ⊢
          rw [ih]

theorem not_mem_of_mem_splitChar (sep : Char) (l : List Char) :
    ∀ p ∈ splitChar sep l, sep ∉ p := by
  induction l with
  | nil =>
    intro p hp
    simp [splitChar] at hp
    simp [hp]
  | cons c cs ih =>
    intro p hp
    by_cases hc : c = sep
    · simp only [splitChar, hc, if_pos rfl] at hp
      rcases List.mem_cons.mp hp with h1 | h1
      · simp [h1]
      · exact ih p h1
    · simp only [splitChar, hc, if_false] at hp
      rcases hs : splitChar sep cs with _ | ⟨q, qs⟩
      · exact absurd hs (splitChar_ne_nil sep cs)
      · rw [hs] at hp
        rcases List.mem_cons.mp hp with h1 | h1
        · subst h1
          intro hm
          rcases List.mem_cons.mp hm with h2 | h2
          · exact hc h2.symm
          · exact ih q (hs ▸ List.mem_cons_self q qs) h2
        · exact ih p (hs ▸ List.mem_cons_of_mem q h1)

theorem trimLeft_eq_dropWhile (s : List Char) :
    trimLeft s = s.dropWhile Char.isWhitespace := by
  induction s with
  | nil => rfl
  | cons c cs ih =>
    by_cases h : c.isWhitespace <;> simp [trimLeft, List.dropWhile_cons, h, ih]

theorem mem_of_mem_takeWhile {α : Type} (p : α → Bool) (l : List α) (a : α)
    (h : a ∈ l.takeWhile p) : a ∈ l := by
  induction l with
  | nil => cases h
  | cons b bs ih =>
    rw [List.takeWhile_cons] at h
    by_cases hb : p b
    · rw [if_pos hb] at h
      rcases List.mem_cons.mp h with h1 | h1
      · exact h1 ▸ List.mem_cons_self b bs
      · exact List.mem_cons_of_mem b (ih h1)
    · rw [if_neg hb] at h
      cases h

theorem mem_processArg_values (t : List Char) (o : ParsedOption)
    (hol : o ∈ processArg t) (hv : o.opt_values ≠ []) :
    o.opt_type = OptionType.LongOpt ∧ '=' ∈ t := by
  rcases hdt : determine_opt_type t with _ | _ | _
  · simp [processArg, hdt] at hol
    subst hol
    simp at hv
  · by_cases h2 : 2 < t.length
    · have hpa : processArg t =
          (t.drop 1).map (fun c => (⟨OptionType.ShortOpt, ['-', c], []⟩ : ParsedOption)) := by
        simp [processArg, hdt, h2]
      rw [hpa] at hol
      rcases List.mem_map.mp hol with ⟨c, _, hco⟩
      rw [← hco] at hv
      simp at hv
    · simp [processArg, hdt, h2] at hol
      subst hol
      simp at hv
  · by_cases hm : '=' ∈ t
    · simp [processArg, hdt, split_once_eq_some '=' t hm] at hol
      subst hol
      exact ⟨rfl, hm⟩
    · simp [processArg, hdt, split_once_eq_none '=' t hm] at hol
      subst hol
      simp at hv

/-- C1: when the scan over the tokens after the program name reaches the
first token literally equal to "--", every remaining token is appended, in
order, unmodified, to positionals and the scan stops: none of them is
classified, and the options come only from the tokens before the separator;
in particular get ["prog", "--", "--"] yields positionals = ["--"]. -/
theorem C1_separator_copies_rest (name : List Char) (pre post : List (List Char))
    (h : ∀ t ∈ pre, t ≠ "--".toList) :
    (get (name :: (pre ++ "--".toList :: post))).args = post ∧
    (get (name :: (pre ++ "--".toList :: post))).opts = (pre.map processArg).flatten ∧
    (get ["prog".toList, "--".toList, "--".toList]).args = ["--".toList] := by
  have hs := scan_append_sep pre post h
  refine ⟨?_, ?_, by decide⟩
  · rw [get_args, List.drop_one, List.tail_cons, hs]
  · rw [get_opts, List.drop_one, List.tail_cons, hs]

theorem C1_separator_copies_rest_w :
    (get ("prog".toList :: (["-a".toList] ++ "--".toList :: ["x".toList, "--".toList]))).args =
      ["x".toList, "--".toList] ∧
    (get ("prog".toList :: (["-a".toList] ++ "--".toList :: ["x".toList, "--".toList]))).opts =
      (["-a".toList].map processArg).flatten ∧
    (get ["prog".toList, "--".toList, "--".toList]).args = ["--".toList] :=
  C1_separator_copies_rest "prog".toList ["-a".toList] ["x".toList, "--".toList] (by decide)

/-- C2 counterexample: the claimed equivalence "positionals empty iff no
token after the first equals --" fails at ["prog", "--"]: the separator is
the last token, so positionals are empty although "--" occurs. -/
theorem C2_positionals_iff_cex :
    ¬ (∀ T : List (List Char), (get T).args = [] ↔ "--".toList ∉ T.drop 1) := by
  intro h
  exact absurd ((h ["prog".toList, "--".toList]).mp (by decide)) (by decide)

/-- C2 (amended): if no token after the first literally equals "--" then
positionals is empty; the converse direction of the claimed iff fails when
the first "--" is the last token. -/
theorem C2_no_sep_no_positionals (T : List (List Char))
    (h : "--".toList ∉ T.drop 1) : (get T).args = [] := by
  have hd : (T.drop 1).dropWhile notSep = [] := by
    rw [List.dropWhile_eq_nil_iff]
    intro a ha
    simp only [notSep, Bool.not_eq_true', decide_eq_false_iff_not]
    exact fun e => h (e ▸ ha)
  rw [get_args, scan_snd, hd]
  rfl

theorem C2_no_sep_no_positionals_w :
    (get ["prog".toList, "x".toList]).args = [] :=
  C2_no_sep_no_positionals ["prog".toList, "x".toList] (by decide)

/-- C8: build is total (a Lean function on all finite token lists, with no
error value in its type): the empty input yields the command with empty
program name and empty option and positional lists, and on any non-empty
input the first token becomes the program name. -/
theorem C8_total_and_empty_input :
    get [] = ⟨[], [], []⟩ ∧
    ∀ (name : List Char) (rest : List (List Char)),
      (get (name :: rest)).cmd_name = name :=
  ⟨rfl, fun _ _ => rfl⟩

/-- C10: a first raw token equal to "--" is taken as the program name: it
does not trigger the separator mode switch and is never classified, and the
remaining tokens are scanned exactly as they would be after any other
program name; get ["--", "x"] yields program name "--", one Simple option
"x" and no positionals. -/
theorem C10_first_token_sep_is_name (rest : List (List Char)) :
    (get ("--".toList :: rest)).cmd_name = "--".toList ∧
    (∀ b : List Char, (get ("--".toList :: rest)).opts = (get (b :: rest)).opts ∧
      (get ("--".toList :: rest)).args = (get (b :: rest)).args) ∧
    get ["--".toList, "x".toList] =
      ⟨"--".toList, [⟨OptionType.Simple, "x".toList, []⟩], []⟩ :=
  ⟨rfl, fun _ => ⟨rfl, rfl⟩, by decide⟩

/-- C4 counterexample: the claim that a token equal to "--" is always
treated as the separator regardless of its position fails at
["prog", "--", "--"]: the "--" at position 2 lands in positionals instead
of making the tokens after it the positionals. -/
theorem C4_always_separator_cex :
    ¬ (∀ (T : List (List Char)) (i : Nat), i < T.length →
        T.getD i [] = "--".toList → (get T).args = T.drop (i + 1)) := by
  intro h
  exact absurd (h ["prog".toList, "--".toList, "--".toList] 2 (by decide) (by decide))
    (by decide)

/-- C4 (amended): only the first literal "--" among the tokens after the
program name acts as the separator: the classified options come exactly from
the tokens before it (none of which equals "--", so "--" is never
classified), the positionals are exactly the tokens after it, and a "--" in
the program-name position does not trigger the switch. -/
theorem C4_first_sep_only (name : List Char) (rest : List (List Char)) :
    (get (name :: rest)).opts = ((rest.takeWhile notSep).map processArg).flatten ∧
    (get (name :: rest)).args = (rest.dropWhile notSep).drop 1 ∧
    (∀ t ∈ rest.takeWhile notSep, t ≠ "--".toList) ∧
    (get ("--".toList :: rest)).cmd_name = "--".toList := by
  refine ⟨?_, ?_, ?_, rfl⟩
  · rw [get_opts, List.drop_one, List.tail_cons, scan_fst]
  · rw [get_args, List.drop_one, List.tail_cons, scan_snd]
  · intro t ht
    have := List.mem_takeWhile_imp ht
    simpa [notSep] using this

theorem C4_first_sep_only_w :
    (get ["p".toList, "a".toList, "--".toList, "b".toList]).opts =
      ((["a".toList, "--".toList, "b".toList].takeWhile notSep).map processArg).flatten ∧
    "a".toList ≠ "--".toList :=
  ⟨(C4_first_sep_only "p".toList ["a".toList, "--".toList, "b".toList]).1,
   (C4_first_sep_only "p".toList ["a".toList, "--".toList, "b".toList]).2.2.1
     "a".toList (by decide)⟩

/-- C5: a pre-separator token classified ShortOption of length above 2 is
expanded: one ParsedOption per character after the leading hyphen, in
left-to-right order, each with kind ShortOption, text "-" plus the
character, and empty values ("-abc" gives "-a","-b","-c"; "-aa" gives two
"-a" entries); a ShortOption token of length exactly 2 gives one
ParsedOption carrying the full token and empty values. -/
theorem C5_short_option_bundling (t : List Char)
    (h : determine_opt_type t = OptionType.ShortOpt) :
    (2 < t.length →
      processArg t = (t.drop 1).map (fun c => ⟨OptionType.ShortOpt, ['-', c], []⟩)) ∧
    (t.length = 2 → processArg t = [⟨OptionType.ShortOpt, t, []⟩]) ∧
    (get ["prog".toList, "-abc".toList]).opts =
      [⟨OptionType.ShortOpt, "-a".toList, []⟩, ⟨OptionType.ShortOpt, "-b".toList, []⟩,
       ⟨OptionType.ShortOpt, "-c".toList, []⟩] ∧
    (get ["prog".toList, "-aa".toList]).opts =
      [⟨OptionType.ShortOpt, "-a".toList, []⟩, ⟨OptionType.ShortOpt, "-a".toList, []⟩] := by
  refine ⟨?_, ?_, by decide, by decide⟩
  · intro hl
    simp [processArg, h, hl]
  · intro hl
    have h2 : ¬ 2 < t.length := by omega
    simp [processArg, h, h2]

theorem C5_short_option_bundling_w :
    processArg "-abc".toList =
      ("-abc".toList.drop 1).map (fun c => ⟨OptionType.ShortOpt, ['-', c], []⟩) ∧
    processArg "-v".toList = [⟨OptionType.ShortOpt, "-v".toList, []⟩] :=
  ⟨(C5_short_option_bundling "-abc".toList (by decide)).1 (by decide),
   (C5_short_option_bundling "-v".toList (by decide)).2.1 (by decide)⟩

/-- C6: a pre-separator token classified LongOption is split at its first
'=' character: if '=' occurs, the emitted ParsedOption has kind LongOption,
text the part before the first '=' and values parse_values of the part
after it (later '=' characters are part of the value); if '=' does not
occur, the full token is the text and the values are empty; in particular
get ["prog", "--flag="] gives one LongOption with text "--flag" and empty
values, and "--k=a=b" keeps "a=b" as a single value. -/
theorem C6_long_option_first_eq (t : List Char)
    (h : determine_opt_type t = OptionType.LongOpt) :
    ('=' ∈ t →
      processArg t = [⟨OptionType.LongOpt, t.takeWhile (fun c => !(c = '=' : Bool)),
        parse_values ((t.dropWhile (fun c => !(c = '=' : Bool))).drop 1)⟩]) ∧
    ('=' ∉ t → processArg t = [⟨OptionType.LongOpt, t, []⟩]) ∧
    (get ["prog".toList, "--flag=".toList]).opts =
      [⟨OptionType.LongOpt, "--flag".toList, []⟩] ∧
    processArg "--k=a=b".toList = [⟨OptionType.LongOpt, "--k".toList, ["a=b".toList]⟩] := by
  refine ⟨?_, ?_, by decide, by decide⟩
  · intro hm
    simp [processArg, h, split_once_eq_some '=' t hm]
  · intro hm
    simp [processArg, h, split_once_eq_none '=' t hm]

theorem C6_long_option_first_eq_w :
    processArg "--flag=".toList =
      [⟨OptionType.LongOpt, "--flag=".toList.takeWhile (fun c => !(c = '=' : Bool)),
        parse_values (("--flag=".toList.dropWhile (fun c => !(c = '=' : Bool))).drop 1)⟩] ∧
    processArg "--verbose".toList = [⟨OptionType.LongOpt, "--verbose".toList, []⟩] :=
  ⟨(C6_long_option_first_eq "--flag=".toList (by decide)).1 (by decide),
   (C6_long_option_first_eq "--verbose".toList (by decide)).2.1 (by decide)⟩

/-- C9: in every parse result, an option's values list is non-empty only
when its kind is LongOption and the token it came from (a token after the
program name) contains '='; every Simple entry, ShortOption entry
(bundled or not) and LongOption entry without '=' has empty values. -/
theorem C9_values_only_long_eq (T : List (List Char)) (o : ParsedOption)
    (ho : o ∈ (get T).opts) (hv : o.opt_values ≠ []) :
    o.opt_type = OptionType.LongOpt ∧
    ∃ t, t ∈ T.drop 1 ∧ o ∈ processArg t ∧ '=' ∈ t := by
  rw [get_opts, scan_fst, List.mem_flatten] at ho
  obtain ⟨l, hl, hol⟩ := ho
  rw [List.mem_map] at hl
  obtain ⟨t, ht, rfl⟩ := hl
  have hmem := mem_processArg_values t o hol hv
  exact ⟨hmem.1, t, mem_of_mem_takeWhile notSep (T.drop 1) t ht, hol, hmem.2⟩

theorem C9_values_only_long_eq_w :
    (⟨OptionType.LongOpt, "--d".toList, ["a".toList]⟩ : ParsedOption).opt_type =
      OptionType.LongOpt ∧
    ∃ t, t ∈ (["prog".toList, "--d=a".toList] : List (List Char)).drop 1 ∧
      (⟨OptionType.LongOpt, "--d".toList, ["a".toList]⟩ : ParsedOption) ∈ processArg t ∧
      '=' ∈ t :=
  C9_values_only_long_eq ["prog".toList, "--d=a".toList]
    ⟨OptionType.LongOpt, "--d".toList, ["a".toList]⟩ (by decide) (by decide)

/-- C3: classify is a total function evaluated in rule order: a token of the
form '-' :: '-' :: s is LongOption; otherwise a token of the form
'-' :: c :: s (a hyphen followed by at least one more character) is
ShortOption; every other token — the empty string, strings not starting
with '-', and the single-character string "-" — is Simple; in particular
the token "--" itself classifies as LongOption. -/
theorem C3_classifier_rules (t : List Char) :
    (determine_opt_type t = OptionType.LongOpt ↔ ∃ s, t = '-' :: '-' :: s) ∧
    (determine_opt_type t = OptionType.ShortOpt ↔
      ((∃ c s, t = '-' :: c :: s) ∧ ¬ ∃ s, t = '-' :: '-' :: s)) ∧
    (determine_opt_type t = OptionType.Simple ↔ ¬ ∃ c s, t = '-' :: c :: s) ∧
    determine_opt_type "--".toList = OptionType.LongOpt ∧
    determine_opt_type [] = OptionType.Simple ∧
    determine_opt_type ['-'] = OptionType.Simple := by
  refine ⟨?_, ?_, ?_, by decide, by decide, by decide⟩ <;>
  · rcases t with _ | ⟨c, _ | ⟨d, s⟩⟩
    · simp [determine_opt_type, List.isPrefixOf, sep_toList, dash_toList]
    · simp [determine_opt_type, List.isPrefixOf, sep_toList, dash_toList]
    · by_cases hc : c = '-' <;> by_cases hd2 : d = '-'
      · subst hc; subst hd2
        simp [determine_opt_type, List.isPrefixOf, sep_toList, dash_toList]
      · subst hc
        have hd3 : ¬ '-' = d := fun h => hd2 h.symm
        simp [determine_opt_type, List.isPrefixOf, sep_toList, dash_toList, hd2, hd3]
      · subst hd2
        have hc3 : ¬ '-' = c := fun h => hc h.symm
        simp [determine_opt_type, List.isPrefixOf, sep_toList, dash_toList, hc, hc3]
      · have hc3 : ¬ '-' = c := fun h => hc h.symm
        have hd3 : ¬ '-' = d := fun h => hd2 h.symm
        simp [determine_opt_type, List.isPrefixOf, sep_toList, dash_toList, hc, hd2, hc3, hd3]

theorem C3_classifier_rules_w :
    determine_opt_type "--".toList = OptionType.LongOpt :=
  (C3_classifier_rules "--".toList).1.mpr ⟨[], rfl⟩

/-- C7: parse_values splits its input on every ',' occurrence (the pieces
reassemble to the input and contain no ','), trims each piece by removing
leading and trailing whitespace, discards pieces that are empty after
trimming, and keeps the survivors in their original order (a sublist of the
trimmed pieces, each survivor the trim of some piece); it is total, and
both "" and ",," yield the empty sequence. -/
theorem C7_parse_values_spec (raw : List Char) :
    joinSep ',' (splitChar ',' raw) = raw ∧
    (∀ p ∈ splitChar ',' raw, ',' ∉ p) ∧
    trim raw =
      ((raw.dropWhile Char.isWhitespace).reverse.dropWhile Char.isWhitespace).reverse ∧
    (parse_values raw).Sublist ((splitChar ',' raw).map trim) ∧
    (∀ v ∈ parse_values raw, v ≠ [] ∧ ∃ p ∈ splitChar ',' raw, v = trim p) ∧
    parse_values [] = [] ∧
    parse_values ",,".toList = [] ∧
    parse_values " a ,, b ".toList = ["a".toList, "b".toList] := by
  refine ⟨joinSep_splitChar ',' raw, not_mem_of_mem_splitChar ',' raw, ?_, ?_, ?_,
    by decide, by decide, by decide⟩
  · show (trimLeft (trimLeft raw).reverse).reverse = _
    rw [trimLeft_eq_dropWhile, trimLeft_eq_dropWhile]
  · exact List.filter_sublist _
  · intro v hv
    rw [parse_values, List.mem_filter] at hv
    obtain ⟨hvm, hne⟩ := hv
    refine ⟨by simpa using hne, ?_⟩
    rcases List.mem_map.mp hvm with ⟨p, hp, rfl⟩
    exact ⟨p, hp, rfl⟩

theorem C7_parse_values_spec_w :
    "a".toList ≠ [] ∧ ∃ p ∈ splitChar ',' " a ,, b ".toList, "a".toList = trim p :=
  (C7_parse_values_spec " a ,, b ".toList).2.2.2.2.1 "a".toList (by decide)

end CmdArg
